import Mathlib

/-!
Verification of the duplex message bridge of the esp32-keymaster repository.

The Python sources are shallowly embedded:
  * `src/serial_bridge.py` — the Cortex chunking protocol (`CHUNK:n/N:data`
    framing, inbound reassembly, timeout reporting, MTU-level splitting);
  * `src/ble_server.py` — the connection-supervisor loop and the send gate;
  * `src/mcp_server/server.py` — the host-side transport (`send` with one
    reconnect-and-retry) and correlator (`send_and_wait`).

Modelling conventions:
  * byte strings / Python `str` values are `List Char` (one `Char` per byte;
    the sources treat payloads as opaque ASCII text);
  * MicroPython `time.ticks_ms()` is a monotonically increasing `Nat` and
    `time.ticks_diff(now, t)` is truncated subtraction `now - t` (the
    wrap-around of the real tick counter is not modelled);
  * Python `dict` used as the reassembly buffer is an association list with
    pairwise-distinct keys maintained by `mapInsert` (same replace-on-insert
    semantics as `buf[n] = data`; `len(dict)` is the list length);
  * Python `int(...)` on strings is `pyInt?` (optional surrounding ASCII
    whitespace, an optional sign, decimal digits with single interior
    underscore separators; exotic Unicode digits are not modelled);
  * exceptions that the source catches are `Option`/branching; the per-call
    side effects (stdout writes, BLE notifications, status events) are
    returned as explicit lists.
-/

/-! ## Constants from serial_bridge.py -/

/-- `_CHUNK_PAYLOAD = 480`: max bytes per BLE chunk payload. -/
def CHUNK_PAYLOAD : Nat := 480

/-- `_CHUNK_SIZE = 200`: safe BLE MTU-level fragment size. -/
def CHUNK_SIZE : Nat := 200

/-- `_CHUNK_TIMEOUT_MS = 5000`: discard incomplete chunk sequences after 5 s. -/
def CHUNK_TIMEOUT_MS : Nat := 5000

/-- `chunk_data_size = _CHUNK_PAYLOAD - 20` in `_send_chunked`
(20 bytes reserved for the chunk header). -/
def chunkDataSize : Nat := CHUNK_PAYLOAD - 20

/-- The characters of the framing tag checked by
`message.startswith("CHUNK:")`. -/
def chunkTag : List Char := ['C', 'H', 'U', 'N', 'K', ':']

/-! ## Python `int()` on decimal strings -/

/-- ASCII decimal digit test (`'0'` to `'9'`). -/
def isDig (c : Char) : Bool := 48 ≤ c.toNat && c.toNat ≤ 57

/-- Numeric value of an ASCII digit character. -/
def digitVal (c : Char) : Nat := c.toNat - 48

/-- The ASCII whitespace characters that Python `int()` strips. -/
def isPySpace (c : Char) : Bool :=
  c = ' ' || c = '\t' || c = '\n' || c = '\r' || c = '\x0b' || c = '\x0c'

/-- Strip leading and trailing whitespace, as Python `int()` does. -/
def pyStrip (s : List Char) : List Char :=
  ((s.dropWhile isPySpace).reverse.dropWhile isPySpace).reverse

/-- Accumulating digit scanner: accepts further digits, allowing a single
underscore between two digits (the Python numeric-literal rule: an
underscore must be followed by a digit and may not end the string). -/
def pyDigitsGo (acc : Nat) : List Char → Option Nat
  | [] => some acc
  | [c] =>
    if c = '_' then none
    else if isDig c then some (acc * 10 + digitVal c) else none
  | c :: c2 :: cs =>
    if c = '_' then
      if isDig c2 then pyDigitsGo (acc * 10 + digitVal c2) cs else none
    else if isDig c then pyDigitsGo (acc * 10 + digitVal c) (c2 :: cs) else none

/-- A nonempty run of decimal digits (with interior underscores), as accepted
by Python `int()` after sign and whitespace handling; `none` models the
`ValueError` that `_handle_inbound_chunk` catches. -/
def pyDigits : List Char → Option Nat
  | [] => none
  | c :: cs => if isDig c then pyDigitsGo (digitVal c) cs else none

/-- Sign handling of Python `int()` once whitespace is stripped: a single
optional leading `+` or `-` before the digits. -/
def pySigned (c : Char) (cs : List Char) : Option Int :=
  if c = '+' then (pyDigits cs).map (fun n => (n : Int))
  else if c = '-' then (pyDigits cs).map (fun n => -(n : Int))
  else (pyDigits (c :: cs)).map (fun n => (n : Int))

/-- Python `int(s)` for decimal strings: strip whitespace, optional single
sign, then digits.  `none` models `ValueError`. -/
def pyInt? (s : List Char) : Option Int :=
  match pyStrip s with
  | [] => none
  | c :: cs => pySigned c cs

/-! ## Decimal printing, as used by Python format of an int -/

/-- Accumulator loop producing the decimal digits of `n` (most significant
first) in front of `acc`.  Structural recursion on a fuel argument so the
kernel can evaluate it; `fuel ≥ n` always suffices since `n` shrinks by a
factor of 10 each step. -/
def natToDigitsGo : Nat → Nat → List Char → List Char
  | 0, _, acc => acc
  | fuel + 1, n, acc =>
    if n = 0 then acc else natToDigitsGo fuel (n / 10) (Nat.digitChar (n % 10) :: acc)

/-- Decimal representation of a natural number, as produced by Python
string formatting of a nonnegative int. -/
def natToDigits (n : Nat) : List Char :=
  if n = 0 then ['0'] else natToDigitsGo n n []

/-- Decimal representation of an int (sign included), as produced by Python
string formatting. -/
def intToDigits (i : Int) : List Char :=
  if i < 0 then '-' :: natToDigits i.natAbs else natToDigits i.toNat

/-- Helper for print/parse round trips: the value obtained by feeding the
decimal digits of `n` into an accumulator that already holds `v`. -/
def absorb (v : Nat) (n : Nat) : Nat :=
  if h : n = 0 then v else absorb v (n / 10) * 10 + n % 10
termination_by n
decreasing_by exact Nat.div_lt_self (Nat.pos_of_ne_zero h) (by norm_num)

/-! ## Python `str.split` -/

/-- `s.split(sep, 1)` when `sep` occurs in `s`: the part before the first
separator and the part after it.  `none` means no separator, in which case
the two-target unpacking in the source raises `ValueError`. -/
def splitFirst? (sep : Char) : List Char → Option (List Char × List Char)
  | [] => none
  | c :: cs =>
    if c = sep then some ([], cs)
    else (splitFirst? sep cs).map (fun p => (c :: p.1, p.2))

/-- Prepend a character to the first part of a split result (the split of a
nonempty string is never `[]`, so the `[]` case is unreachable). -/
def consHead (c : Char) : List (List Char) → List (List Char)
  | [] => [[c]]
  | a :: rest => (c :: a) :: rest

/-- `s.split(sep)` with no maxsplit: all parts, `[[]]` for the empty
string (Python returns a single empty part there). -/
def splitAll (sep : Char) : List Char → List (List Char)
  | [] => [[]]
  | c :: cs =>
    if c = sep then [] :: splitAll sep cs
    else consHead c (splitAll sep cs)

/-! ## Chunk header parsing (`_handle_inbound_chunk`, lines 64-75) -/

/-- `n = int(n_str); total = int(total_str)`: both header fields must be
valid Python ints. -/
def parseNums? (nStr tStr : List Char) : Option (Int × Int) :=
  match pyInt? nStr, pyInt? tStr with
  | some n, some t => some (n, t)
  | _, _ => none

/-- `n_str, total_str = header.split("/")`: the two-target unpacking
requires exactly two parts, anything else raises the caught `ValueError`. -/
def parseHeader? (header : List Char) : Option (Int × Int) :=
  match splitAll '/' header with
  | [nStr, tStr] => parseNums? nStr tStr
  | _ => none

/-- The `try` block of `_handle_inbound_chunk`: strip the 6-character
`CHUNK:` tag, split once at `:` into header and data, split the header at
`/` into exactly two parts, and convert both with `int()`.  `none` models
the caught `(ValueError, IndexError)`, i.e. a malformed header. -/
def parseChunk? (msg : List Char) : Option (Int × Int × List Char) :=
  (splitFirst? ':' (msg.drop 6)).bind
    (fun hd => (parseHeader? hd.1).map (fun p => (p.1, p.2, hd.2)))

/-! ## Reassembly state (`SerialBridge.__init__`) -/

/-- The inbound reassembly state of `SerialBridge`: `self._chunk_buf`
(a dict from chunk number to data), `self._chunk_total`, and
`self._chunk_ts` (0 = unset, as in the source's truthiness checks). -/
structure ChunkState where
  chunk_buf : List (Int × List Char)
  chunk_total : Int
  chunk_ts : Nat
deriving DecidableEq, Repr

/-- The state established by `__init__`: empty dict, total 0, timestamp 0. -/
def initState : ChunkState := ⟨[], 0, 0⟩

/-- Python `dict` lookup returning `none` when the key is absent. -/
def mapFind? : List (Int × List Char) → Int → Option (List Char)
  | [], _ => none
  | e :: rest, k => if k = e.1 then some e.2 else mapFind? rest k

/-- Python `dict.get(k, "")`. -/
def mapGet (l : List (Int × List Char)) (k : Int) : List Char :=
  (mapFind? l k).getD []

/-- Python `dict` assignment `d[k] = v`: replace the existing binding for
`k` or append a fresh one.  Keeps keys pairwise distinct. -/
def mapInsert : List (Int × List Char) → Int → List Char → List (Int × List Char)
  | [], k, v => [(k, v)]
  | e :: rest, k, v => if k = e.1 then (k, v) :: rest else e :: mapInsert rest k v

/-- The reassembly loop `for i in range(1, total + 1): full_msg +=
buf.get(i, "")` — missing indices contribute the empty string. -/
def assembleFrom (buf : List (Int × List Char)) (total : Int) : List Char :=
  (List.range total.toNat).foldl (fun acc (i : Nat) => acc ++ mapGet buf ((i : Int) + 1)) []

/-- `l.endswith("\n")` for our byte strings. -/
def endsWithNl (l : List Char) : Bool := l.getLast? = some '\n'

/-- `line = msg if msg.endswith("\n") else msg + "\n"`. -/
def nlTerminate (l : List Char) : List Char :=
  if endsWithNl l then l else l ++ ['\n']

/-- The `RAW:` forwarding line for a malformed chunk header. -/
def rawLine (msg : List Char) : List Char :=
  'R' :: 'A' :: 'W' :: ':' :: (msg ++ ['\n'])

/-- The `ERR:CHUNK_TIMEOUT:received k/total chunks` line written by
`_check_chunk_timeout`. -/
def errLine (k : Nat) (total : Int) : List Char :=
  "ERR:CHUNK_TIMEOUT:received ".toList ++ natToDigits k ++
    '/' :: (intToDigits total ++ " chunks".toList) ++ ['\n']

/-! ## Inbound chunk handling (`_handle_inbound_chunk`, lines 62-107) -/

/-- The tail of `_handle_inbound_chunk` after the chunk is stored: if the
dict has `total` entries, concatenate by ascending index, reset all state
and write the (terminated) message; otherwise keep the updated state. -/
def chunkFinish (buf : List (Int × List Char)) (total : Int) (s2 : ChunkState) :
    ChunkState × List (List Char) :=
  if (buf.length : Int) = total then
    (initState, [nlTerminate (assembleFrom buf total)])
  else
    (⟨buf, s2.chunk_total, s2.chunk_ts⟩, [])

/-- The state updates of `_handle_inbound_chunk` for a successfully parsed
chunk `(n, total, data)` at tick `now`: reset on a different total or an
expired timestamp; set the timestamp if unset; store the chunk; finish. -/
def chunkStep (s : ChunkState) (n total : Int) (data : List Char) (now : Nat) :
    ChunkState × List (List Char) :=
  let s1 : ChunkState :=
    if total ≠ s.chunk_total ∨ (s.chunk_ts ≠ 0 ∧ CHUNK_TIMEOUT_MS < now - s.chunk_ts)
    then ⟨[], total, now⟩ else s
  let s2 : ChunkState :=
    if s1.chunk_ts = 0 then ⟨s1.chunk_buf, s1.chunk_total, now⟩ else s1
  chunkFinish (mapInsert s2.chunk_buf n data) total s2

/-- One call of `SerialBridge._handle_inbound_chunk(message)` at tick `now`:
returns the successor state and the list of lines written to the host link
(`sys.stdout`).  Malformed headers are forwarded as a `RAW:` line with the
state untouched; valid chunks go through `chunkStep`. -/
def handleInboundChunk (s : ChunkState) (msg : List Char) (now : Nat) :
    ChunkState × List (List Char) :=
  (parseChunk? msg).elim (s, [rawLine msg])
    (fun t => chunkStep s t.1 t.2.1 t.2.2 now)

/-- `SerialBridge.on_ble_receive`: dispatch on the `CHUNK:` tag; non-chunk
messages are forwarded to the host link with a terminator appended if
missing. -/
def onBleReceive (s : ChunkState) (msg : List Char) (now : Nat) :
    ChunkState × List (List Char) :=
  if chunkTag.isPrefixOf msg then handleInboundChunk s msg now
  else (s, [nlTerminate msg])

/-- `SerialBridge._check_chunk_timeout` at tick `now`: if a reassembly is
in progress (truthy timestamp and nonempty dict) and older than the
timeout, write the `ERR:CHUNK_TIMEOUT` line and reset all state. -/
def checkChunkTimeout (s : ChunkState) (now : Nat) :
    ChunkState × List (List Char) :=
  if s.chunk_ts ≠ 0 ∧ s.chunk_buf ≠ [] then
    if CHUNK_TIMEOUT_MS < now - s.chunk_ts then
      (initState, [errLine s.chunk_buf.length s.chunk_total])
    else (s, [])
  else (s, [])

/-- Deliver a list of inbound messages to `_handle_inbound_chunk` in order
(all within the timeout window, so at one tick), accumulating the host-link
output. -/
def feedChunks (s : ChunkState) (msgs : List (List Char)) (now : Nat) :
    ChunkState × List (List Char) :=
  msgs.foldl (fun acc msg =>
    let r := handleInboundChunk acc.1 msg now
    (r.1, acc.2 ++ r.2)) (s, [])

/-- The reassembly dict after the first `j` chunks of a sequence with
payloads `pl` have been stored in order: keys `1..j` bound to their
payloads. -/
def bufUpTo (pl : Nat → List Char) (j : Nat) : List (Int × List Char) :=
  (List.range j).map (fun (i : Nat) => ((i : Int) + 1, pl i))

/-- The reachable states of the reassembly buffer: the initial state, and
anything produced from a reachable state by an inbound chunk or by the
periodic timeout check.  Ticks of chunk arrivals are positive (ticks are
milliseconds since boot and the bridge starts handling traffic after its
startup flush). -/
inductive ReachableChunk : ChunkState → Prop where
  | init : ReachableChunk initState
  | handle (s : ChunkState) (msg : List Char) (now : Nat) :
      ReachableChunk s → 0 < now → ReachableChunk (handleInboundChunk s msg now).1
  | timeout (s : ChunkState) (now : Nat) :
      ReachableChunk s → ReachableChunk (checkChunkTimeout s now).1

/-! ## Outbound path (`_process_buffer`, `_send_chunked`, `_send_ble`) -/

/-- The `while offset < len` loop of `_send_ble`, structurally recursive on
a fuel argument (`fuel ≥ data.length` suffices since each step consumes
`_CHUNK_SIZE ≥ 1` characters): split into consecutive fragments of at most
`_CHUNK_SIZE` bytes. -/
def splitMTUGo : Nat → List Char → List (List Char)
  | _, [] => []
  | 0, data => [data]
  | fuel + 1, data => data.take CHUNK_SIZE :: splitMTUGo fuel (data.drop CHUNK_SIZE)

/-- The `while offset < len` loop of `_send_ble`: split into consecutive
fragments of at most `_CHUNK_SIZE` bytes. -/
def splitMTU (data : List Char) : List (List Char) :=
  splitMTUGo data.length data

/-- `SerialBridge._send_ble(data)`: the list of raw BLE notifications
(`self._ble.send_raw` arguments) it produces.  Drops everything when not
connected; sends one notification when within the MTU fragment size, else
fragments. -/
def sendBLE (connected : Bool) (data : List Char) : List (List Char) :=
  if ¬connected then []
  else if data.length ≤ CHUNK_SIZE then [data]
  else splitMTU data

/-- `data_str[start:end]` for chunk `i` in `_send_chunked`
(`start = i * chunk_data_size`, `end = min(start + chunk_data_size, len)`). -/
def sliceAt (m : List Char) (i : Nat) : List Char :=
  (m.drop (i * chunkDataSize)).take chunkDataSize

/-- `total = (len + chunk_data_size - 1) // chunk_data_size` in
`_send_chunked`. -/
def chunkCount (m : List Char) : Nat :=
  (m.length + chunkDataSize - 1) / chunkDataSize

/-- The wire payload of chunk `i`: its slice of the message, with the line
terminator appended on the final chunk only (`chunk_msg += "\n"`). -/
def framePayload (m : List Char) (total i : Nat) : List Char :=
  sliceAt m i ++ if i = total - 1 then ['\n'] else []

/-- The `chunk_msg` string built for chunk index `i` (0-based loop index,
1-based wire number): tag, number, `/`, total, `:`, payload. -/
def chunkFrame (m : List Char) (total i : Nat) : List Char :=
  chunkTag ++ natToDigits (i + 1) ++
    '/' :: (natToDigits total ++ ':' :: framePayload m total i)

/-- All frames produced by the loop of `_send_chunked` for message `m`,
in the order they are sent. -/
def chunkFrames (m : List Char) : List (List Char) :=
  (List.range (chunkCount m)).map (chunkFrame m (chunkCount m))

/-- `SerialBridge._send_chunked(data_bytes)`: nothing if not connected,
otherwise each frame is passed to `_send_ble` in order. -/
def sendChunked (connected : Bool) (line : List Char) : List (List Char) :=
  if ¬connected then []
  else ((chunkFrames line).map (sendBLE connected)).flatten

/-- The per-line dispatch of `_process_buffer`: lines longer than
`_CHUNK_PAYLOAD` go through `_send_chunked`, others are sent as a single
terminated payload through `_send_ble`. -/
def processLine (connected : Bool) (line : List Char) : List (List Char) :=
  if CHUNK_PAYLOAD < line.length then sendChunked connected line
  else sendBLE connected (line ++ ['\n'])

/-- Protocol-level round trip of one extracted line `m`: the outbound side
sends it unchunked (single payload `m + "\n"`) or as chunk frames; the
inbound side of the peer bridge receives those protocol messages and writes
host-link lines.  Link-level MTU fragments reassemble to the payload
(proved separately), so the short path delivers `m + "\n"` as one message. -/
def roundTripLines (m : List Char) (now : Nat) : List (List Char) :=
  if m.length ≤ CHUNK_PAYLOAD then (onBleReceive initState (m ++ ['\n']) now).2
  else (feedChunks initState (chunkFrames m) now).2

/-! ## Connection supervisor (`ble_server.py`, `_advertise_task`) -/

/-- The possible outcomes of one pass through the `while True` body of
`_advertise_task`: a successful connection that later drops, a
`DeviceDisconnectedError`, an `asyncio.CancelledError`, an `OSError`, or
any other exception from the radio stack. -/
inductive AdvOutcome where
  | connected (peer : String)
  | devDisconnected
  | cancelled
  | osError (detail : String)
  | advError (detail : String)
deriving DecidableEq, Repr

/-- What one loop iteration does: status events emitted via
`_notify_status` in order, backoff sleep in milliseconds, and whether the
iteration re-raises (only `CancelledError` does). -/
structure AdvIter where
  events : List (String × String)
  sleepMs : Nat
  raised : Bool
deriving DecidableEq, Repr

/-- One pass of `_advertise_task`'s loop body for a given outcome, read off
the source: `advertising` is always emitted first; a connection emits
`connected` then, after the liveness poll ends, `disconnected`; errors emit
`error` and sleep 1000 ms before the common `disconnected` epilogue;
`CancelledError` is re-raised before the epilogue. -/
def advertiseIter : AdvOutcome → AdvIter
  | .connected peer => ⟨[("advertising", ""), ("connected", peer), ("disconnected", "")], 0, false⟩
  | .devDisconnected => ⟨[("advertising", ""), ("disconnected", "")], 0, false⟩
  | .cancelled => ⟨[("advertising", "")], 0, true⟩
  | .osError d => ⟨[("advertising", ""), ("error", d), ("disconnected", "")], 1000, false⟩
  | .advError d => ⟨[("advertising", ""), ("error", d), ("disconnected", "")], 1000, false⟩

/-- Run `_advertise_task` against a finite prefix of transport outcomes:
the concatenated status events and whether the loop terminated (which only
a `CancelledError` can cause — every other outcome falls through to the
next iteration). -/
def advertiseTask : List AdvOutcome → List (String × String) × Bool
  | [] => ([], false)
  | o :: rest =>
    let it := advertiseIter o
    if it.raised then (it.events, true)
    else
      let r := advertiseTask rest
      (it.events ++ r.1, r.2)

/-- `BLEServer.send(data)`: `none` (an early return, nothing written to the
TX characteristic) when not connected, otherwise the notified payload. -/
def bleServerSend (connected : Bool) (data : String) : Option String :=
  if ¬connected then none else some data

/-! ## Host-side correlator (`mcp_server/server.py`, `send_and_wait`) -/

/-- The polling loop of `_SerialBridge.send_and_wait`, discretised: each
step is one pass of the `while time.time() < deadline` loop, given the
current wall time and the queue entries popped in that pass.  Entries with
timestamps at or after `t0` are kept; `firstAt` records when the first
qualifying line arrived; once `settle` has elapsed since then the collected
lines are returned. -/
def sendAndWaitLoop (t0 deadline settle : Nat) :
    List (Nat × List (Nat × String)) → List String → Option Nat → List String
  | [], lines, _ => lines
  | (t, arrived) :: rest, lines, firstAt =>
    if t < deadline then
      let fresh := arrived.filter (fun e => t0 ≤ e.1)
      let lines2 := lines ++ fresh.map Prod.snd
      let firstAt2 := if firstAt.isNone ∧ fresh ≠ [] then some t else firstAt
      match firstAt2 with
      | some fa =>
        if settle ≤ t - fa then lines2
        else sendAndWaitLoop t0 deadline settle rest lines2 (some fa)
      | none => sendAndWaitLoop t0 deadline settle rest lines2 none
    else lines

/-- `_SerialBridge.send_and_wait(message, timeout, settle)`: the RX queue is
cleared (`self._rx_queue.clear()`) before the send — its pre-send contents
`q0` are discarded — the message is sent at `t0`, and the loop collects
lines until `t0 + timeout`. -/
def send_and_wait (_q0 : List (Nat × String)) (t0 timeout settle : Nat)
    (steps : List (Nat × List (Nat × String))) : List String :=
  sendAndWaitLoop t0 (t0 + timeout) settle steps [] none

/-- All queue entries delivered across the polling steps. -/
def stepEntries (steps : List (Nat × List (Nat × String))) : List (Nat × String) :=
  (steps.map Prod.snd).flatten

/-! ## Host-side transport (`mcp_server/server.py`, `send` / `_reconnect`) -/

/-- A reconnect performed by `_SerialBridge._reconnect`: the stale handle is
closed, a 1 s cooldown elapses, and the same port is reopened. -/
structure Reconn where
  closedOld : Bool
  cooldownMs : Nat
  reopenedPort : Option String
deriving DecidableEq, Repr

/-- Observable result of `_SerialBridge.send(message)`: the payloads passed
to `self._ser.write` (in order), the reconnects performed, the payloads
actually delivered (successful writes), and whether the call returned
normally (`false` = the exception propagated to the caller). -/
structure SendResult where
  attempts : List String
  reconnects : List Reconn
  delivered : List String
  ok : Bool
deriving DecidableEq, Repr

/-- `if not message.endswith("\n"): message += "\n"` then UTF-8 encode. -/
def encodeMsg (message : String) : String :=
  if message.endsWith "\n" then message else message ++ "\n"

/-- `_SerialBridge.send(message)`: try the write; on a serial/OS error,
`_reconnect()` (close, 1 s cooldown, reopen the same `port_name`) and retry
the same encoded payload exactly once, unguarded — a second failure
propagates.  `firstWriteFails` / `secondWriteFails` are the oracle for the
two possible physical write outcomes. -/
def sendRetry (port : Option String) (message : String)
    (firstWriteFails secondWriteFails : Bool) : SendResult :=
  let encoded := encodeMsg message
  if ¬firstWriteFails then ⟨[encoded], [], [encoded], true⟩
  else
    let rc : Reconn := ⟨true, 1000, port⟩
    if ¬secondWriteFails then ⟨[encoded, encoded], [rc], [encoded], true⟩
    else ⟨[encoded, encoded], [rc], [], false⟩

/-! # Helper lemmas: decimal print/parse round trip -/

/-- An ASCII digit is none of the header/sign/whitespace characters. -/
theorem isDig_facts (c : Char) (h : isDig c = true) :
    c ≠ ':' ∧ c ≠ '/' ∧ c ≠ '\n' ∧ c ≠ '_' ∧ c ≠ '+' ∧ c ≠ '-' ∧ isPySpace c = false := by
  have hv : 48 ≤ c.toNat ∧ c.toNat ≤ 57 := by simpa [isDig] using h
  refine ⟨?_, ?_, ?_, ?_, ?_, ?_, ?_⟩
  · rintro rfl; revert hv; decide
  · rintro rfl; revert hv; decide
  · rintro rfl; revert hv; decide
  · rintro rfl; revert hv; decide
  · rintro rfl; revert hv; decide
  · rintro rfl; revert hv; decide
  · cases hx : isPySpace c
    · rfl
    · exfalso
      simp only [isPySpace, Bool.or_eq_true, decide_eq_true_eq] at hx
      rcases hx with ((((rfl | rfl) | rfl) | rfl) | rfl) | rfl <;> revert hv <;> decide

/-- `Nat.digitChar` of a value below 10 is an ASCII digit with that value. -/
theorem digitChar_isDig (r : Nat) (h : r < 10) :
    isDig (Nat.digitChar r) = true ∧ digitVal (Nat.digitChar r) = r := by
  interval_cases r <;> exact ⟨by decide, by decide⟩

/-- Every character produced by the digit printer is an ASCII digit. -/
theorem natToDigitsGo_digits :
    ∀ (fuel n : Nat) (acc : List Char), (∀ c ∈ acc, isDig c = true) →
      ∀ c ∈ natToDigitsGo fuel n acc, isDig c = true := by
  intro fuel
  induction fuel with
  | zero =>
    intro n acc hacc c hc
    simp only [natToDigitsGo] at hc
    exact hacc c hc
  | succ fuel ih =>
    intro n acc hacc c hc
    rw [natToDigitsGo] at hc
    by_cases hn : n = 0
    · rw [if_pos hn] at hc; exact hacc c hc
    · rw [if_neg hn] at hc
      refine ih (n / 10) _ ?_ c hc
      intro d hd
      rcases List.mem_cons.mp hd with rfl | hd
      · exact (digitChar_isDig (n % 10) (Nat.mod_lt _ (by norm_num))).1
      · exact hacc d hd

/-- The digit printer never returns the empty list (given enough fuel). -/
theorem natToDigitsGo_ne_nil :
    ∀ (fuel n : Nat) (acc : List Char), n ≤ fuel → (n ≠ 0 ∨ acc ≠ []) →
      natToDigitsGo fuel n acc ≠ [] := by
  intro fuel
  induction fuel with
  | zero =>
    intro n acc hle hor
    interval_cases n
    simp only [natToDigitsGo]
    rcases hor with h | h
    · exact absurd rfl h
    · exact h
  | succ fuel ih =>
    intro n acc hle hor
    rw [natToDigitsGo]
    by_cases hn : n = 0
    · rw [if_pos hn]
      rcases hor with h | h
      · exact absurd hn h
      · exact h
    · rw [if_neg hn]
      exact ih (n / 10) _ (by omega) (Or.inr (by simp))

/-- Folding the digit-accumulation step over printed digits computes
`absorb`. -/
theorem foldl_natToDigitsGo :
    ∀ (fuel n : Nat) (acc : List Char) (v : Nat), n ≤ fuel →
      (natToDigitsGo fuel n acc).foldl (fun a c => a * 10 + digitVal c) v =
        acc.foldl (fun a c => a * 10 + digitVal c) (absorb v n) := by
  intro fuel
  induction fuel with
  | zero =>
    intro n acc v hle
    interval_cases n
    simp only [natToDigitsGo]
    rw [absorb, dif_pos rfl]
  | succ fuel ih =>
    intro n acc v hle
    rw [natToDigitsGo]
    by_cases hn : n = 0
    · rw [if_pos hn, hn]
      rw [absorb, dif_pos rfl]
    · rw [if_neg hn]
      rw [ih (n / 10) _ v (by omega), List.foldl_cons]
      rw [(digitChar_isDig (n % 10) (Nat.mod_lt _ (by norm_num))).2]
      congr 1
      conv_rhs => rw [absorb]
      rw [dif_neg hn]

/-- Feeding digits into an accumulator starting from 0 recovers the number. -/
theorem absorb_zero (n : Nat) : absorb 0 n = n := by
  induction n using Nat.strong_induction_on with
  | _ n ih =>
    rw [absorb]
    by_cases hn : n = 0
    · rw [dif_pos hn, hn]
    · rw [dif_neg hn, ih (n / 10) (Nat.div_lt_self (Nat.pos_of_ne_zero hn) (by norm_num))]
      omega

/-- Every character of `natToDigits n` is an ASCII digit. -/
theorem natToDigits_digits (n : Nat) : ∀ c ∈ natToDigits n, isDig c = true := by
  rw [natToDigits]
  by_cases hn : n = 0
  · rw [if_pos hn]; intro c hc; simp only [List.mem_singleton] at hc; subst hc; decide
  · rw [if_neg hn]; exact natToDigitsGo_digits n n [] (by simp)

/-- `natToDigits n` is never empty. -/
theorem natToDigits_ne_nil (n : Nat) : natToDigits n ≠ [] := by
  rw [natToDigits]
  by_cases hn : n = 0
  · rw [if_pos hn]; simp
  · rw [if_neg hn]; exact natToDigitsGo_ne_nil n n [] le_rfl (Or.inl hn)

/-- The digit scanner accepts an all-digit string and folds up its value. -/
theorem pyDigitsGo_all_digits :
    ∀ (cs : List Char) (acc : Nat), (∀ c ∈ cs, isDig c = true) →
      pyDigitsGo acc cs = some (cs.foldl (fun a c => a * 10 + digitVal c) acc) := by
  intro cs
  induction cs with
  | nil => intro acc _; rfl
  | cons c cs ih =>
    intro acc h
    have hc : isDig c = true := h c (List.mem_cons_self c cs)
    have hne : c ≠ '_' := (isDig_facts c hc).2.2.2.1
    cases cs with
    | nil =>
      rw [pyDigitsGo, if_neg hne, if_pos hc, List.foldl_cons, List.foldl_nil]
    | cons c2 cs2 =>
      rw [pyDigitsGo, if_neg hne, if_pos hc]
      rw [ih _ (fun d hd => h d (List.mem_cons_of_mem _ hd))]
      simp only [List.foldl_cons]

/-- Parsing the printed decimal digits of `n` recovers `n`. -/
theorem pyDigits_natToDigits (n : Nat) : pyDigits (natToDigits n) = some n := by
  by_cases hn : n = 0
  · subst hn; decide
  · rw [natToDigits, if_neg hn]
    obtain ⟨c, cs, hcons⟩ : ∃ c cs, natToDigitsGo n n [] = c :: cs := by
      rcases hl : natToDigitsGo n n [] with _ | ⟨c, cs⟩
      · exact absurd hl (natToDigitsGo_ne_nil n n [] le_rfl (Or.inl hn))
      · exact ⟨c, cs, rfl⟩
    have hdig : ∀ d ∈ c :: cs, isDig d = true := by
      rw [← hcons]; exact natToDigitsGo_digits n n [] (by simp)
    have hc := hdig c (List.mem_cons_self c cs)
    rw [hcons, pyDigits, if_pos hc]
    rw [pyDigitsGo_all_digits cs (digitVal c) (fun d hd => hdig d (List.mem_cons_of_mem _ hd))]
    have hf : (c :: cs).foldl (fun a d => a * 10 + digitVal d) 0 = n := by
      rw [← hcons, foldl_natToDigitsGo n n [] 0 le_rfl]
      simp only [List.foldl_nil]
      exact absorb_zero n
    rw [List.foldl_cons] at hf
    rw [show 0 * 10 + digitVal c = digitVal c by omega] at hf
    rw [hf]

/-- `dropWhile` is the identity on a list none of whose elements satisfy
the predicate. -/
theorem dropWhile_of_none (p : Char → Bool) (l : List Char)
    (h : ∀ c ∈ l, p c = false) : l.dropWhile p = l := by
  cases l with
  | nil => rfl
  | cons c cs =>
    rw [List.dropWhile_cons, h c (List.mem_cons_self _ _)]
    simp

/-- Stripping whitespace is the identity on whitespace-free strings. -/
theorem pyStrip_of_no_space (l : List Char) (h : ∀ c ∈ l, isPySpace c = false) :
    pyStrip l = l := by
  unfold pyStrip
  rw [dropWhile_of_none _ _ h]
  rw [dropWhile_of_none _ _ (fun c hc => h c (List.mem_reverse.mp hc))]
  exact List.reverse_reverse l

/-- Python `int()` of the printed decimal digits of `n` is `n`. -/
theorem pyInt?_natToDigits (n : Nat) : pyInt? (natToDigits n) = some (n : Int) := by
  have hdig := natToDigits_digits n
  obtain ⟨c, cs, hcons⟩ : ∃ c cs, natToDigits n = c :: cs := by
    rcases hl : natToDigits n with _ | ⟨c, cs⟩
    · exact absurd hl (natToDigits_ne_nil n)
    · exact ⟨c, cs, rfl⟩
    
  have hstrip : pyStrip (natToDigits n) = natToDigits n :=
    pyStrip_of_no_space _ (fun d hd => (isDig_facts d (hdig d hd)).2.2.2.2.2.2)
  have hc : isDig c = true := hdig c (hcons ▸ List.mem_cons_self c cs)
  unfold pyInt?
  rw [hstrip, hcons]
  show pySigned c cs = some (n : Int)
  unfold pySigned
  rw [if_neg (isDig_facts c hc).2.2.2.2.1, if_neg (isDig_facts c hc).2.2.2.2.2.1]
  rw [← hcons, pyDigits_natToDigits]
  rfl

/-! # Helper lemmas: splitting and chunk-header parsing -/

/-- `splitFirst?` splits at the first occurrence of the separator. -/
theorem splitFirst?_first (sep : Char) (b : List Char) :
    ∀ a : List Char, sep ∉ a → splitFirst? sep (a ++ sep :: b) = some (a, b) := by
  intro a
  induction a with
  | nil => intro _; rw [List.nil_append, splitFirst?, if_pos rfl]
  | cons c a ih =>
    intro ha
    have hc : c ≠ sep := fun h => ha (h ▸ List.mem_cons_self c a)
    rw [List.cons_append, splitFirst?, if_neg hc, ih (fun h => ha (List.mem_cons_of_mem _ h))]
    rfl

/-- Splitting a separator-free string returns it whole. -/
theorem splitAll_no_sep (sep : Char) :
    ∀ l : List Char, sep ∉ l → splitAll sep l = [l] := by
  intro l
  induction l with
  | nil => intro _; rfl
  | cons c cs ih =>
    intro hl
    have hc : c ≠ sep := fun h => hl (h ▸ List.mem_cons_self c cs)
    rw [splitAll, if_neg hc, ih (fun h => hl (List.mem_cons_of_mem _ h))]
    rfl

/-- Splitting a string with exactly one separator gives the two parts. -/
theorem splitAll_two (sep : Char) (b : List Char) (hb : sep ∉ b) :
    ∀ a : List Char, sep ∉ a → splitAll sep (a ++ sep :: b) = [a, b] := by
  intro a
  induction a with
  | nil =>
    intro _
    rw [List.nil_append, splitAll, if_pos rfl, splitAll_no_sep sep b hb]
  | cons c a ih =>
    intro ha
    have hc : c ≠ sep := fun h => ha (h ▸ List.mem_cons_self c a)
    rw [List.cons_append, splitAll, if_neg hc, ih (fun h => ha (List.mem_cons_of_mem _ h))]
    rfl

/-- Printed digits contain no colon. -/
theorem natToDigits_no_colon (n : Nat) : ':' ∉ natToDigits n :=
  fun h => (isDig_facts _ (natToDigits_digits n _ h)).1 rfl

/-- Printed digits contain no slash. -/
theorem natToDigits_no_slash (n : Nat) : '/' ∉ natToDigits n :=
  fun h => (isDig_facts _ (natToDigits_digits n _ h)).2.1 rfl

/-- Printed digits contain no newline. -/
theorem natToDigits_no_nl (n : Nat) : '\n' ∉ natToDigits n :=
  fun h => (isDig_facts _ (natToDigits_digits n _ h)).2.2.1 rfl

/-- Parsing a well-formed `CHUNK:a/b:p` frame recovers the chunk number,
the total and the payload (the payload itself may contain colons — only
the first colon after the tag separates the header). -/
theorem parseChunk?_mk (a b : Nat) (p : List Char) :
    parseChunk? (chunkTag ++ natToDigits a ++ '/' :: (natToDigits b ++ ':' :: p)) =
      some ((a : Int), (b : Int), p) := by
  have hdrop : (chunkTag ++ (natToDigits a ++ '/' :: (natToDigits b ++ ':' :: p))).drop 6
      = natToDigits a ++ '/' :: (natToDigits b ++ ':' :: p) := by
    rw [show (6 : Nat) = chunkTag.length from rfl, List.drop_left]
  have hassoc : natToDigits a ++ '/' :: (natToDigits b ++ ':' :: p)
      = (natToDigits a ++ '/' :: natToDigits b) ++ ':' :: p := by
    simp [List.cons_append, List.append_assoc]
  have hnc : ':' ∉ natToDigits a ++ '/' :: natToDigits b := by
    intro hmem
    rcases List.mem_append.mp hmem with h | h
    · exact natToDigits_no_colon a h
    · rcases List.mem_cons.mp h with h | h
      · exact absurd h (by decide)
      · exact natToDigits_no_colon b h
  have hsf : splitFirst? ':' (natToDigits a ++ '/' :: (natToDigits b ++ ':' :: p))
      = some (natToDigits a ++ '/' :: natToDigits b, p) := by
    rw [hassoc]
    exact splitFirst?_first ':' p _ hnc
  have hsa : splitAll '/' (natToDigits a ++ '/' :: natToDigits b)
      = [natToDigits a, natToDigits b] :=
    splitAll_two '/' _ (natToDigits_no_slash b) _ (natToDigits_no_slash a)
  have hnums : parseNums? (natToDigits a) (natToDigits b) = some ((a : Int), (b : Int)) := by
    unfold parseNums?
    rw [pyInt?_natToDigits a, pyInt?_natToDigits b]
  have hhdr : parseHeader? (natToDigits a ++ '/' :: natToDigits b)
      = some ((a : Int), (b : Int)) := by
    unfold parseHeader?
    rw [hsa]
    exact hnums
  unfold parseChunk?
  rw [List.append_assoc, hdrop, hsf]
  simp only [Option.some_bind, hhdr, Option.map_some']

/-! # Helper lemmas: the reassembly dict -/

/-- Inserting a key not present in the dict appends a fresh binding. -/
theorem mapInsert_fresh (k : Int) (v : List Char) :
    ∀ l : List (Int × List Char), (∀ e ∈ l, e.1 ≠ k) → mapInsert l k v = l ++ [(k, v)] := by
  intro l
  induction l with
  | nil => intro _; rfl
  | cons e l ih =>
    intro h
    rw [mapInsert, if_neg (fun hk => h e (List.mem_cons_self _ _) hk.symm)]
    rw [ih (fun d hd => h d (List.mem_cons_of_mem _ hd))]
    rfl

/-- Lookup in an appended dict: the left part wins when it binds the key. -/
theorem mapFind?_append (k : Int) (l2 : List (Int × List Char)) :
    ∀ l1 : List (Int × List Char),
      mapFind? (l1 ++ l2) k = (mapFind? l1 k).elim (mapFind? l2 k) some := by
  intro l1
  induction l1 with
  | nil => simp [mapFind?]
  | cons e l1 ih =>
    rw [List.cons_append, mapFind?, mapFind?]
    by_cases hk : k = e.1
    · rw [if_pos hk, if_pos hk]; rfl
    · rw [if_neg hk, if_neg hk, ih]

/-- `bufUpTo` grows by one binding per chunk. -/
theorem bufUpTo_succ (pl : Nat → List Char) (j : Nat) :
    bufUpTo pl (j + 1) = bufUpTo pl j ++ [((j : Int) + 1, pl j)] := by
  unfold bufUpTo
  rw [List.range_succ, List.map_append]
  rfl

/-- All keys of `bufUpTo pl j` lie in `1..j`. -/
theorem bufUpTo_keys (pl : Nat → List Char) (j : Nat) :
    ∀ e ∈ bufUpTo pl j, 1 ≤ e.1 ∧ e.1 ≤ (j : Int) := by
  intro e he
  unfold bufUpTo at he
  obtain ⟨i, hi, rfl⟩ := List.mem_map.mp he
  rw [List.mem_range] at hi
  constructor <;> (push_cast; omega)

/-- The dict built from `j` in-order chunks has `j` entries. -/
theorem length_bufUpTo (pl : Nat → List Char) (j : Nat) :
    (bufUpTo pl j).length = j := by
  unfold bufUpTo
  rw [List.length_map, List.length_range]

/-- Storing chunk `j + 1` into the dict of the first `j` chunks extends it. -/
theorem mapInsert_bufUpTo (pl : Nat → List Char) (j : Nat) :
    mapInsert (bufUpTo pl j) ((j : Int) + 1) (pl j) = bufUpTo pl (j + 1) := by
  rw [mapInsert_fresh _ _ _ (fun e he => by have := bufUpTo_keys pl j e he; omega),
    bufUpTo_succ]

/-- Lookup in the in-order dict: key `i + 1` is bound iff `i < j`. -/
theorem mapFind?_bufUpTo (pl : Nat → List Char) :
    ∀ j i : Nat, mapFind? (bufUpTo pl j) ((i : Int) + 1) =
      if i < j then some (pl i) else none := by
  intro j
  induction j with
  | zero => intro i; simp [bufUpTo, mapFind?]
  | succ j ih =>
    intro i
    rw [bufUpTo_succ, mapFind?_append, ih i]
    by_cases hij : i < j
    · rw [if_pos hij, if_pos (by omega)]; rfl
    · rw [if_neg hij]
      show mapFind? [((j : Int) + 1, pl j)] ((i : Int) + 1) = _
      rw [mapFind?]
      by_cases hi : i = j
      · subst hi
        rw [if_pos rfl, if_pos (by omega)]
      · rw [if_neg (by simp only []; omega), if_neg (by omega)]
        rfl

/-- Folding list appends equals flattening the mapped parts. -/
theorem foldl_append_eq (g : Nat → List Char) :
    ∀ (l : List Nat) (acc : List Char),
      l.foldl (fun a i => a ++ g i) acc = acc ++ (l.map g).flatten := by
  intro l
  induction l with
  | nil => intro acc; simp
  | cons i l ih =>
    intro acc
    rw [List.foldl_cons, ih, List.map_cons, List.flatten_cons, List.append_assoc]

/-- `assembleFrom` concatenates the lookups for indices `1..N`. -/
theorem assembleFrom_eval (buf : List (Int × List Char)) (N : Nat) :
    assembleFrom buf (N : Int) =
      ((List.range N).map (fun (i : Nat) => mapGet buf ((i : Int) + 1))).flatten := by
  unfold assembleFrom
  rw [Int.toNat_natCast]
  rw [foldl_append_eq, List.nil_append]

/-- Reassembling the in-order dict of all `N` chunks concatenates the
payloads in index order. -/
theorem assembleFrom_bufUpTo (pl : Nat → List Char) (N : Nat) :
    assembleFrom (bufUpTo pl N) (N : Int) = ((List.range N).map pl).flatten := by
  rw [assembleFrom_eval]
  congr 1
  apply List.map_congr_left
  intro i hi
  rw [List.mem_range] at hi
  unfold mapGet
  rw [mapFind?_bufUpTo pl N i, if_pos hi]
  rfl

/-- Concatenating the first `k` chunk slices recovers a prefix of the
message. -/
theorem flatten_slices (m : List Char) :
    ∀ k : Nat, ((List.range k).map (sliceAt m)).flatten = m.take (k * chunkDataSize) := by
  intro k
  induction k with
  | zero => simp
  | succ k ih =>
    rw [List.range_succ, List.map_append, List.flatten_append, ih]
    rw [show (k + 1) * chunkDataSize = k * chunkDataSize + chunkDataSize from by ring]
    rw [List.take_add]
    congr 1
    simp [sliceAt]

/-- All `chunkCount m` slices together are the whole message. -/
theorem take_chunkCount (m : List Char) :
    m.take (chunkCount m * chunkDataSize) = m := by
  apply List.take_of_length_le
  show m.length ≤ (m.length + chunkDataSize - 1) / chunkDataSize * chunkDataSize
  rw [show chunkDataSize = 460 from rfl]
  omega

/-- A message longer than the payload limit needs at least two chunks. -/
theorem chunkCount_ge_two (m : List Char) (hm : CHUNK_PAYLOAD < m.length) :
    2 ≤ chunkCount m := by
  show 2 ≤ (m.length + chunkDataSize - 1) / chunkDataSize
  rw [show chunkDataSize = 460 from rfl]
  rw [show CHUNK_PAYLOAD = 480 from rfl] at hm
  omega

/-- Every chunk index below `chunkCount m` starts strictly inside `m`. -/
theorem chunkCount_start_lt (m : List Char) (i : Nat) (hi : i < chunkCount m) :
    i * chunkDataSize < m.length := by
  rw [show chunkCount m = (m.length + 460 - 1) / 460 from rfl] at hi
  rw [show chunkDataSize = 460 from rfl]
  omega

/-! # Helper lemmas: handling a valid chunk -/

/-- When parsing succeeds, `_handle_inbound_chunk` runs the state update. -/
theorem handleInboundChunk_parsed (s : ChunkState) (msg : List Char) (now : Nat)
    (n total : Int) (data : List Char) (hp : parseChunk? msg = some (n, total, data)) :
    handleInboundChunk s msg now = chunkStep s n total data now := by
  unfold handleInboundChunk
  rw [hp]
  rfl

/-- When parsing fails, the message is forwarded as a `RAW:` line and the
state is untouched. -/
theorem handleInboundChunk_raw (s : ChunkState) (msg : List Char) (now : Nat)
    (hp : parseChunk? msg = none) :
    handleInboundChunk s msg now = (s, [rawLine msg]) := by
  unfold handleInboundChunk
  rw [hp]
  rfl

/-- The set-if-unset timestamp guard is the identity when the stored
timestamp already equals `now`. -/
theorem guard2_eq (s1 : ChunkState) (now : Nat) (h : s1.chunk_ts = now) :
    (if s1.chunk_ts = 0 then ChunkState.mk s1.chunk_buf s1.chunk_total now else s1) = s1 := by
  by_cases h0 : s1.chunk_ts = 0
  · rw [if_pos h0, ← h]
  · rw [if_neg h0]

/-- A chunk that triggers the reset branch behaves as if the stored state
were empty: old partial data is discarded. -/
theorem chunkStep_reset (s : ChunkState) (n total : Int) (data : List Char) (now : Nat)
    (h : total ≠ s.chunk_total ∨ (s.chunk_ts ≠ 0 ∧ CHUNK_TIMEOUT_MS < now - s.chunk_ts)) :
    chunkStep s n total data now =
      chunkFinish (mapInsert [] n data) total ⟨[], total, now⟩ := by
  simp only [chunkStep]
  rw [if_pos h]
  rw [guard2_eq ⟨[], total, now⟩ now rfl]

/-- A chunk continuing the current sequence (same total, not expired)
stores its payload; the timestamp is set from `now` only if it was unset. -/
theorem chunkStep_keep (s : ChunkState) (n total : Int) (data : List Char) (now : Nat)
    (h1 : total = s.chunk_total)
    (h2 : s.chunk_ts = 0 ∨ now - s.chunk_ts ≤ CHUNK_TIMEOUT_MS) :
    chunkStep s n total data now =
      chunkFinish (mapInsert s.chunk_buf n data) total
        ⟨s.chunk_buf, s.chunk_total, if s.chunk_ts = 0 then now else s.chunk_ts⟩ := by
  simp only [chunkStep]
  have hcond : ¬(total ≠ s.chunk_total ∨ (s.chunk_ts ≠ 0 ∧ CHUNK_TIMEOUT_MS < now - s.chunk_ts)) := by
    push_neg
    exact ⟨h1, fun hts => (h2.resolve_left hts)⟩
  rw [if_neg hcond]
  by_cases h0 : s.chunk_ts = 0
  · rw [if_pos h0, if_pos h0]
  · rw [if_neg h0, if_neg h0]

/-- Completion branch of the chunk handler. -/
theorem chunkFinish_complete (buf : List (Int × List Char)) (total : Int) (s2 : ChunkState)
    (h : (buf.length : Int) = total) :
    chunkFinish buf total s2 = (initState, [nlTerminate (assembleFrom buf total)]) := by
  unfold chunkFinish
  rw [if_pos h]

/-- Non-completion branch of the chunk handler. -/
theorem chunkFinish_incomplete (buf : List (Int × List Char)) (total : Int) (s2 : ChunkState)
    (h : (buf.length : Int) ≠ total) :
    chunkFinish buf total s2 = (⟨buf, s2.chunk_total, s2.chunk_ts⟩, []) := by
  unfold chunkFinish
  rw [if_neg h]

/-- Parsing a frame built by `_send_chunked` recovers its wire number
(`i + 1`), the total and the payload. -/
theorem parseChunk?_chunkFrame (m : List Char) (total i : Nat) :
    parseChunk? (chunkFrame m total i) =
      some ((i : Int) + 1, (total : Int), framePayload m total i) := by
  unfold chunkFrame
  rw [parseChunk?_mk (i + 1) total (framePayload m total i)]
  norm_cast

/-- `feedChunks` over a single message is one handler call. -/
theorem feedChunks_one (s : ChunkState) (x : List Char) (now : Nat) :
    feedChunks s [x] now = handleInboundChunk s x now := by
  show ((handleInboundChunk s x now).1, [] ++ (handleInboundChunk s x now).2) = _
  rw [List.nil_append]

/-- `feedChunks` over `l ++ [x]` composes the run over `l` with one final
handler call. -/
theorem feedChunks_snoc (s : ChunkState) (l : List (List Char)) (x : List Char) (now : Nat) :
    feedChunks s (l ++ [x]) now =
      ((handleInboundChunk (feedChunks s l now).1 x now).1,
        (feedChunks s l now).2 ++ (handleInboundChunk (feedChunks s l now).1 x now).2) := by
  unfold feedChunks
  rw [List.foldl_append]
  rfl

/-- A string ending in the terminator is forwarded unchanged. -/
theorem nlTerminate_append_nl (l : List Char) : nlTerminate (l ++ ['\n']) = l ++ ['\n'] := by
  unfold nlTerminate endsWithNl
  rw [List.getLast?_concat]
  simp

/-- Concatenating all frame payloads in index order yields the message
followed by the line terminator (only the final payload carries it). -/
theorem flatten_framePayload (m : List Char) (hm : CHUNK_PAYLOAD < m.length) :
    ((List.range (chunkCount m)).map (framePayload m (chunkCount m))).flatten
      = m ++ ['\n'] := by
  have hN1 : 1 ≤ chunkCount m := le_trans (by norm_num) (chunkCount_ge_two m hm)
  obtain ⟨K, hK⟩ : ∃ K, chunkCount m = K + 1 := ⟨chunkCount m - 1, by omega⟩
  rw [hK, List.range_succ, List.map_append, List.flatten_append]
  have hpre : (List.range K).map (framePayload m (K + 1))
      = (List.range K).map (sliceAt m) := by
    apply List.map_congr_left
    intro i hi
    rw [List.mem_range] at hi
    unfold framePayload
    rw [if_neg (by omega), List.append_nil]
  rw [hpre, flatten_slices]
  rw [List.map_cons, List.map_nil, List.flatten_cons, List.flatten_nil, List.append_nil]
  unfold framePayload
  rw [if_pos (by omega)]
  rw [← List.append_assoc]
  congr 1
  unfold sliceAt
  rw [show m.take (K * chunkDataSize) ++ (m.drop (K * chunkDataSize)).take chunkDataSize
      = m.take (K * chunkDataSize + chunkDataSize) from (List.take_add m _ _).symm]
  rw [show K * chunkDataSize + chunkDataSize = chunkCount m * chunkDataSize from by
    rw [hK]; ring]
  exact take_chunkCount m

/-- Handling the first frame of a chunked message from the initial state
stores its payload under key 1 and expects `chunkCount m` chunks. -/
theorem handle_frame_zero (m : List Char) (hm : CHUNK_PAYLOAD < m.length) (now : Nat) :
    handleInboundChunk initState (chunkFrame m (chunkCount m) 0) now =
      (⟨bufUpTo (framePayload m (chunkCount m)) 1, (chunkCount m : Int), now⟩, []) := by
  have hN2 := chunkCount_ge_two m hm
  rw [handleInboundChunk_parsed _ _ _ _ _ _ (parseChunk?_chunkFrame m (chunkCount m) 0)]
  rw [chunkStep_reset _ _ _ _ _ (Or.inl (by
    show (chunkCount m : Int) ≠ initState.chunk_total
    show (chunkCount m : Int) ≠ (0 : Int)
    exact_mod_cast (by omega : chunkCount m ≠ 0)))]
  rw [chunkFinish_incomplete _ _ _ (by
    show ((mapInsert [] ((0 : Int) + 1) (framePayload m (chunkCount m) 0)).length : Int)
      ≠ (chunkCount m : Int)
    rw [show mapInsert [] ((0 : Int) + 1) (framePayload m (chunkCount m) 0)
        = [((0 : Int) + 1, framePayload m (chunkCount m) 0)] from rfl]
    rw [List.length_singleton]
    exact_mod_cast (by omega : (1 : Nat) ≠ chunkCount m))]
  rfl

/-- Handling frame `j` (for `1 ≤ j < chunkCount m`) from the state holding
the first `j` payloads stores payload `j`; the final frame completes the
reassembly and writes the whole message. -/
theorem handle_frame_mid (m : List Char) (hm : CHUNK_PAYLOAD < m.length) (now : Nat)
    (j : Nat) (_hjN : j < chunkCount m) :
    handleInboundChunk
        ⟨bufUpTo (framePayload m (chunkCount m)) j, (chunkCount m : Int), now⟩
        (chunkFrame m (chunkCount m) j) now =
      if j + 1 = chunkCount m then (initState, [m ++ ['\n']])
      else (⟨bufUpTo (framePayload m (chunkCount m)) (j + 1), (chunkCount m : Int), now⟩, []) := by
  rw [handleInboundChunk_parsed _ _ _ _ _ _ (parseChunk?_chunkFrame m (chunkCount m) j)]
  rw [chunkStep_keep _ _ _ _ _ rfl (Or.inr (by simp))]
  show chunkFinish
      (mapInsert (bufUpTo (framePayload m (chunkCount m)) j) ((j : Int) + 1)
        (framePayload m (chunkCount m) j))
      (chunkCount m : Int)
      ⟨bufUpTo (framePayload m (chunkCount m)) j, (chunkCount m : Int),
        if now = 0 then now else now⟩ = _
  rw [ite_self, mapInsert_bufUpTo]
  by_cases hend : j + 1 = chunkCount m
  · rw [if_pos hend]
    rw [chunkFinish_complete _ _ _ (by
      rw [length_bufUpTo]
      exact_mod_cast hend)]
    rw [hend, assembleFrom_bufUpTo, flatten_framePayload m hm, nlTerminate_append_nl]
  · rw [if_neg hend]
    rw [chunkFinish_incomplete _ _ _ (by
      rw [length_bufUpTo]
      exact_mod_cast hend)]

/-- Feeding the first `j` frames of a chunked message in order: strictly
before the last frame the state holds exactly payloads `1..j` and nothing
has been written; feeding all frames completes the reassembly and writes
the message once, leaving the state reset. -/
theorem feed_frames (m : List Char) (hm : CHUNK_PAYLOAD < m.length) (now : Nat) :
    ∀ j, 1 ≤ j → j ≤ chunkCount m →
      feedChunks initState ((List.range j).map (chunkFrame m (chunkCount m))) now =
        if j = chunkCount m then (initState, [m ++ ['\n']])
        else (⟨bufUpTo (framePayload m (chunkCount m)) j, (chunkCount m : Int), now⟩, []) := by
  have hN2 := chunkCount_ge_two m hm
  intro j
  induction j with
  | zero => intro h; omega
  | succ j ih =>
    intro _ hle
    by_cases hj0 : j = 0
    · subst hj0
      rw [show (List.range 1).map (chunkFrame m (chunkCount m))
          = [chunkFrame m (chunkCount m) 0] from rfl]
      rw [feedChunks_one, handle_frame_zero m hm now]
      rw [if_neg (by omega)]
    · rw [List.range_succ, List.map_append, List.map_cons, List.map_nil, feedChunks_snoc]
      rw [ih (by omega) (by omega)]
      rw [if_neg (by omega)]
      rw [handle_frame_mid m hm now j (by omega)]
      by_cases hend : j + 1 = chunkCount m
      · rw [if_pos hend]
        rfl
      · rw [if_neg hend]
        rfl

/-- Appending the terminator cannot turn a non-`CHUNK:`-prefixed message
into a `CHUNK:`-prefixed one. -/
theorem chunkTag_isPrefixOf_append_nl (m : List Char)
    (h : chunkTag.isPrefixOf m = false) :
    chunkTag.isPrefixOf (m ++ ['\n']) = false := by
  cases hx : chunkTag.isPrefixOf (m ++ ['\n'])
  · rfl
  · exfalso
    have hp : chunkTag <+: (m ++ ['\n']) := List.isPrefixOf_iff_prefix.mp hx
    by_cases hlen6 : 6 ≤ m.length
    · have htake : chunkTag = (m ++ ['\n']).take 6 := by
        have := List.prefix_iff_eq_take.mp hp
        simpa [chunkTag] using this
      have htake2 : (m ++ ['\n']).take 6 = m.take 6 := by
        rw [List.take_append_eq_append_take]
        rw [show (6 - m.length) = 0 from by omega]
        simp
      have hpm : chunkTag <+: m := by
        rw [htake, htake2]
        exact List.take_prefix 6 m
      have : chunkTag.isPrefixOf m = true := List.isPrefixOf_iff_prefix.mpr hpm
      rw [h] at this
      cases this
    · have hm5 : m.length = 5 := by
        have hl := hp.length_le
        rw [List.length_append] at hl
        simp only [chunkTag, List.length_cons, List.length_nil, List.length_singleton] at hl ⊢
        omega
      have heq : chunkTag = m ++ ['\n'] := by
        apply hp.eq_of_length
        rw [List.length_append, hm5]
        rfl
      have hlast := congrArg List.getLast? heq
      rw [List.getLast?_concat] at hlast
      rw [show chunkTag.getLast? = some ':' from rfl] at hlast
      exact absurd hlast (by decide)

/-- Claim C1 (counterexample to the claim as stated): the protocol-level
round trip is not the identity for every message within the payload limit.
The 11-character message `CHUNK:1/1:x` is sent unchunked, but the receiving
bridge dispatches on its `CHUNK:` prefix and reassembles it, so the host
receives `x` plus a terminator instead of the original message. -/
theorem chunk_roundtrip_cex :
    ("CHUNK:1/1:x".toList).length ≤ CHUNK_PAYLOAD ∧
    roundTripLines ("CHUNK:1/1:x".toList) 5 = [['x', '\n']] ∧
    roundTripLines ("CHUNK:1/1:x".toList) 5 ≠ ["CHUNK:1/1:x".toList ++ ['\n']] :=
  ⟨by decide, by decide, by decide⟩

/-- Claim C1 (amended): for every message `m` within the payload limit
(480 bytes) that does not itself begin with the chunk tag `CHUNK:`, the
round trip through chunk-split/reassemble delivers exactly the terminated
line `m`; and for every message longer than the payload limit, splitting
with the framing of `_send_chunked` and reassembling the frames in index
order with `_handle_inbound_chunk` delivers exactly the terminated line
`m`, with chunk count `chunkCount m = ceil(len(m) / chunk_data_size)`
frames (the two inequalities characterise the ceiling). -/
theorem chunk_roundtrip_amended (m : List Char) (now : Nat) :
    (m.length ≤ CHUNK_PAYLOAD → chunkTag.isPrefixOf m = false →
      roundTripLines m now = [m ++ ['\n']]) ∧
    (CHUNK_PAYLOAD < m.length →
      roundTripLines m now = [m ++ ['\n']] ∧
      (chunkFrames m).length = chunkCount m ∧
      (chunkCount m - 1) * chunkDataSize < m.length ∧
      m.length ≤ chunkCount m * chunkDataSize) := by
  constructor
  · intro hlen hpre
    unfold roundTripLines
    rw [if_pos hlen]
    unfold onBleReceive
    rw [if_neg (by rw [chunkTag_isPrefixOf_append_nl m hpre]; exact Bool.false_ne_true)]
    show [nlTerminate (m ++ ['\n'])] = _
    rw [nlTerminate_append_nl]
  · intro hlong
    have hN2 := chunkCount_ge_two m hlong
    refine ⟨?_, ?_, ?_, ?_⟩
    · unfold roundTripLines
      rw [if_neg (by omega)]
      unfold chunkFrames
      have hfeed := feed_frames m hlong now (chunkCount m) (by omega) le_rfl
      rw [if_pos rfl] at hfeed
      rw [hfeed]
    · unfold chunkFrames
      rw [List.length_map, List.length_range]
    · exact chunkCount_start_lt m (chunkCount m - 1) (by omega)
    · show m.length ≤ (m.length + chunkDataSize - 1) / chunkDataSize * chunkDataSize
      rw [show chunkDataSize = 460 from rfl]
      omega

/-- Claim C1 (witness): the amended round trip at concrete inputs — the
short message `ping` comes back as the terminated line `ping`. -/
theorem chunk_roundtrip_amended_witness :
    roundTripLines ("ping".toList) 3 = ["ping".toList ++ ['\n']] :=
  (chunk_roundtrip_amended ("ping".toList) 3).1 (by decide) (by decide)

/-! # Helper lemmas: MTU-level splitting and frame shape -/

/-- The MTU fragments concatenate back to the payload (any fuel). -/
theorem splitMTUGo_flatten : ∀ (fuel : Nat) (data : List Char),
    (splitMTUGo fuel data).flatten = data := by
  intro fuel
  induction fuel with
  | zero =>
    intro data
    cases data with
    | nil => rfl
    | cons c cs => simp [splitMTUGo]
  | succ fuel ih =>
    intro data
    cases data with
    | nil => rfl
    | cons c cs =>
      rw [show splitMTUGo (fuel + 1) (c :: cs)
          = (c :: cs).take CHUNK_SIZE :: splitMTUGo fuel ((c :: cs).drop CHUNK_SIZE) from rfl]
      rw [List.flatten_cons, ih]
      exact List.take_append_drop _ _

/-- Every MTU fragment respects the notification size limit (given enough
fuel, which `splitMTU` always supplies). -/
theorem splitMTUGo_bound : ∀ (fuel : Nat) (data : List Char), data.length ≤ fuel →
    ∀ w ∈ splitMTUGo fuel data, w.length ≤ CHUNK_SIZE := by
  intro fuel
  induction fuel with
  | zero =>
    intro data h w hw
    have hnil : data = [] := List.eq_nil_of_length_eq_zero (by omega)
    subst hnil
    simp [splitMTUGo] at hw
  | succ fuel ih =>
    intro data h w hw
    cases data with
    | nil => simp [splitMTUGo] at hw
    | cons c cs =>
      rw [show splitMTUGo (fuel + 1) (c :: cs)
          = (c :: cs).take CHUNK_SIZE :: splitMTUGo fuel ((c :: cs).drop CHUNK_SIZE) from rfl] at hw
      rcases List.mem_cons.mp hw with rfl | hw
      · rw [List.length_take]
        exact le_trans inf_le_left le_rfl
      · refine ih _ ?_ w hw
        rw [List.length_drop]
        rw [show CHUNK_SIZE = 200 from rfl]
        simp only [List.length_cons] at h ⊢
        omega

/-- `_send_ble` while connected: the raw notifications concatenate to the
payload, and each notification is within the MTU fragment size. -/
theorem sendBLE_connected (data : List Char) :
    (sendBLE true data).flatten = data ∧
    ∀ w ∈ sendBLE true data, w.length ≤ CHUNK_SIZE := by
  unfold sendBLE
  rw [if_neg (by simp)]
  by_cases hlen : data.length ≤ CHUNK_SIZE
  · rw [if_pos hlen]
    exact ⟨by simp, by intro w hw; rw [List.mem_singleton] at hw; subst hw; exact hlen⟩
  · rw [if_neg hlen]
    exact ⟨splitMTUGo_flatten _ _, splitMTUGo_bound _ _ le_rfl⟩

/-- A chunk frame written as header-plus-payload. -/
theorem chunkFrame_eq_append (m : List Char) (total i : Nat) :
    chunkFrame m total i =
      (chunkTag ++ natToDigits (i + 1) ++ '/' :: natToDigits total ++ [':'])
        ++ framePayload m total i := by
  simp only [chunkFrame, List.cons_append, List.nil_append, List.append_assoc]

/-- Each slice of a message that starts inside it is nonempty. -/
theorem sliceAt_ne_nil (m : List Char) (i : Nat) (hi : i < chunkCount m) :
    sliceAt m i ≠ [] := by
  unfold sliceAt
  intro hnil
  have := congrArg List.length hnil
  rw [List.length_take, List.length_drop] at this
  have hstart := chunkCount_start_lt m i hi
  rw [show chunkDataSize = 460 from rfl] at this hstart
  simp only [List.length_nil] at this
  omega

/-- A non-final chunk frame does not end with the line terminator
(provided the line itself contains none, as extracted lines do). -/
theorem chunkFrame_not_final_no_nl (m : List Char) (hnl : '\n' ∉ m) (i : Nat)
    (hi : i < chunkCount m) (hlast : i ≠ chunkCount m - 1) :
    endsWithNl (chunkFrame m (chunkCount m) i) = false := by
  rw [chunkFrame_eq_append]
  unfold endsWithNl
  have hpay : framePayload m (chunkCount m) i = sliceAt m i := by
    unfold framePayload
    rw [if_neg hlast, List.append_nil]
  rw [hpay]
  rw [List.getLast?_append_of_ne_nil _ (sliceAt_ne_nil m i hi)]
  rcases hg : (sliceAt m i).getLast? with _ | c
  · simp
  · have hc : c ∈ sliceAt m i := List.mem_of_mem_getLast? hg
    have hcm : c ∈ m := List.mem_of_mem_drop (List.mem_of_mem_take hc)
    have : c ≠ '\n' := fun h => hnl (h ▸ hcm)
    simp [this]

/-- The final chunk frame carries the line terminator. -/
theorem chunkFrame_final_nl (m : List Char) (total : Nat) :
    endsWithNl (chunkFrame m total (total - 1)) = true := by
  rw [chunkFrame_eq_append]
  unfold endsWithNl framePayload
  rw [if_pos rfl]
  rw [show (sliceAt m (total - 1) ++ ['\n']) = sliceAt m (total - 1) ++ ['\n'] from rfl]
  rw [← List.append_assoc, List.getLast?_concat]
  simp

/-- Claim C2: for every terminated line extracted from the host byte stream
(extracted lines contain no terminator), while connected: a line within the
480-byte payload limit is sent as one wireless payload — the terminated
line handed whole to `_send_ble`, whose notifications are each within the
200-byte limit and concatenate back to the payload with no header added —
and a longer line becomes `chunkCount` frames `CHUNK:n/N:payload` passed to
`_send_ble` in list order with ascending wire numbers `1..N` (the `i`-th
frame parses back as number `i + 1`), only the final frame ending with the
terminator, the payloads concatenating to the terminated line. -/
theorem outbound_line_framing (line : List Char) (hnl : '\n' ∉ line) :
    (line.length ≤ CHUNK_PAYLOAD →
      processLine true line = sendBLE true (line ++ ['\n']) ∧
      (sendBLE true (line ++ ['\n'])).flatten = line ++ ['\n'] ∧
      (∀ w ∈ sendBLE true (line ++ ['\n']), w.length ≤ CHUNK_SIZE)) ∧
    (CHUNK_PAYLOAD < line.length →
      processLine true line = ((chunkFrames line).map (sendBLE true)).flatten ∧
      (chunkFrames line).length = chunkCount line ∧
      (∀ i, i < chunkCount line →
        (chunkFrames line).getD i [] = chunkFrame line (chunkCount line) i ∧
        parseChunk? (chunkFrame line (chunkCount line) i) =
          some ((i : Int) + 1, (chunkCount line : Int),
            framePayload line (chunkCount line) i)) ∧
      (∀ i, i < chunkCount line → i ≠ chunkCount line - 1 →
        endsWithNl (chunkFrame line (chunkCount line) i) = false) ∧
      endsWithNl (chunkFrame line (chunkCount line) (chunkCount line - 1)) = true ∧
      ((List.range (chunkCount line)).map (framePayload line (chunkCount line))).flatten
        = line ++ ['\n']) := by
  constructor
  · intro hlen
    refine ⟨?_, (sendBLE_connected _).1, (sendBLE_connected _).2⟩
    unfold processLine
    rw [if_neg (by omega)]
  · intro hlong
    refine ⟨?_, ?_, ?_, ?_, ?_, ?_⟩
    · unfold processLine
      rw [if_pos hlong]
      unfold sendChunked
      rw [if_neg (by simp)]
    · unfold chunkFrames
      rw [List.length_map, List.length_range]
    · intro i hi
      constructor
      · unfold chunkFrames
        rw [List.getD_eq_getElem _ _ (by simpa using hi)]
        simp
      · exact parseChunk?_chunkFrame line (chunkCount line) i
    · intro i hi hlast
      exact chunkFrame_not_final_no_nl line hnl i hi hlast
    · exact chunkFrame_final_nl line (chunkCount line)
    · exact flatten_framePayload line hlong

/-- Claim C2 (witness): the short line `hi` goes out as the single
terminated payload, MTU-fragmented to itself. -/
theorem outbound_line_framing_witness :
    processLine true ("hi".toList) = sendBLE true ("hi".toList ++ ['\n']) ∧
    (sendBLE true ("hi".toList ++ ['\n'])).flatten = "hi".toList ++ ['\n'] ∧
    (∀ w ∈ sendBLE true ("hi".toList ++ ['\n']), w.length ≤ CHUNK_SIZE) :=
  (outbound_line_framing ("hi".toList) (by decide)).1 (by decide)

/-! # Helper lemmas: reachability invariant of the reassembly state -/

/-- `chunkStep` always leaves a finish state whose timestamp component is
nonzero when the tick is positive. -/
theorem chunkStep_eq_finish (s : ChunkState) (n total : Int) (data : List Char) (now : Nat) :
    ∃ s2 : ChunkState,
      chunkStep s n total data now = chunkFinish (mapInsert s2.chunk_buf n data) total s2 ∧
      (0 < now → s2.chunk_ts ≠ 0) := by
  simp only [chunkStep]
  refine ⟨_, rfl, ?_⟩
  intro hnow
  set s1 : ChunkState :=
    if total ≠ s.chunk_total ∨ (s.chunk_ts ≠ 0 ∧ CHUNK_TIMEOUT_MS < now - s.chunk_ts)
    then ⟨[], total, now⟩ else s with hs1
  by_cases h0 : s1.chunk_ts = 0
  · rw [if_pos h0]
    show now ≠ 0
    omega
  · rw [if_neg h0]
    exact h0

/-- `chunkFinish` keeps its input timestamp unless it completes (and then
the buffer is empty anyway). -/
theorem chunkFinish_ts (buf : List (Int × List Char)) (total : Int) (s2 : ChunkState)
    (hts : s2.chunk_ts ≠ 0)
    (hbuf : (chunkFinish buf total s2).1.chunk_buf ≠ []) :
    (chunkFinish buf total s2).1.chunk_ts ≠ 0 := by
  unfold chunkFinish at hbuf ⊢
  by_cases h : (buf.length : Int) = total
  · rw [if_pos h] at hbuf
    exact absurd rfl hbuf
  · rw [if_neg h] at hbuf ⊢
    exact hts

/-- Invariant of every reachable reassembly state: a nonempty chunk dict
implies a set (truthy) timestamp, so the timeout check can always fire. -/
theorem reachable_ts_of_buf (s : ChunkState) (hr : ReachableChunk s) :
    s.chunk_buf ≠ [] → s.chunk_ts ≠ 0 := by
  induction hr with
  | init => intro h; exact absurd rfl h
  | handle s msg now hr hnow ih =>
    rcases hp : parseChunk? msg with _ | ⟨n, total, data⟩
    · rw [handleInboundChunk_raw s msg now hp]
      exact ih
    · rw [handleInboundChunk_parsed s msg now n total data hp]
      obtain ⟨s2, heq, hts⟩ := chunkStep_eq_finish s n total data now
      rw [heq]
      exact chunkFinish_ts _ _ _ (hts hnow)
  | timeout s now hr ih =>
    unfold checkChunkTimeout
    by_cases h1 : s.chunk_ts ≠ 0 ∧ s.chunk_buf ≠ []
    · rw [if_pos h1]
      by_cases h2 : CHUNK_TIMEOUT_MS < now - s.chunk_ts
      · rw [if_pos h2]
        intro h
        exact absurd rfl h
      · rw [if_neg h2]
        exact ih
    · rw [if_neg h1]
      exact ih

/-- Claim C3: for every reachable state of the inbound reassembly buffer
with a reassembly in progress (nonempty chunk dict) that is older than the
5 s chunk timeout, the periodic timeout check discards it, writes the
`ERR:CHUNK_TIMEOUT:received k/total chunks` line to the host link, and
resets the chunk dict, total and timestamp to the initial state, so a
subsequent fresh chunk sequence starts cleanly. -/
theorem chunk_timeout_reported (s : ChunkState) (now : Nat)
    (hr : ReachableChunk s) (hbuf : s.chunk_buf ≠ [])
    (hold : CHUNK_TIMEOUT_MS < now - s.chunk_ts) :
    checkChunkTimeout s now =
      (initState, [errLine s.chunk_buf.length s.chunk_total]) := by
  have hts : s.chunk_ts ≠ 0 := reachable_ts_of_buf s hr hbuf
  unfold checkChunkTimeout
  rw [if_pos ⟨hts, hbuf⟩, if_pos hold]

/-- Claim C3 (witness): one chunk of a 3-chunk sequence arrives at tick
100; the check at tick 5101 reports `received 1/3 chunks` and resets. -/
theorem chunk_timeout_reported_witness :
    checkChunkTimeout (handleInboundChunk initState ("CHUNK:1/3:ab".toList) 100).1 5101 =
      (initState, ["ERR:CHUNK_TIMEOUT:received 1/3 chunks\n".toList]) := by
  rw [chunk_timeout_reported _ 5101
    (ReachableChunk.handle initState _ 100 ReachableChunk.init (by norm_num))
    (by decide) (by decide)]
  decide

/-- Claim C4: at most one reassembly is in progress at a time — for every
in-progress sequence (nonempty chunk dict), a valid chunk announcing a
total different from the stored total makes the handler behave exactly as
if the stored state were the initial one (the old partial chunk data is
discarded), and — unless the new total is 1, which completes immediately —
the buffer thereafter holds only the new chunk and expects the new total. -/
theorem chunk_total_mismatch_resets (s : ChunkState) (msg : List Char) (now : Nat)
    (n total : Int) (data : List Char)
    (hp : parseChunk? msg = some (n, total, data))
    (_hbuf : s.chunk_buf ≠ [])
    (hne : total ≠ s.chunk_total) :
    handleInboundChunk s msg now = handleInboundChunk initState msg now ∧
    (total ≠ 1 →
      (handleInboundChunk s msg now).1 = ⟨[(n, data)], total, now⟩) := by
  rw [handleInboundChunk_parsed s msg now n total data hp,
      handleInboundChunk_parsed initState msg now n total data hp]
  constructor
  · rw [chunkStep_reset s n total data now (Or.inl hne)]
    by_cases h0 : total = 0
    · rw [chunkStep_keep initState n total data now (by rw [h0]; rfl) (Or.inl rfl)]
      rw [h0]
      rfl
    · rw [chunkStep_reset initState n total data now (Or.inl h0)]
  · intro h1
    rw [chunkStep_reset s n total data now (Or.inl hne)]
    rw [chunkFinish_incomplete _ _ _ (by
      rw [show mapInsert [] n data = [(n, data)] from rfl, List.length_singleton]
      intro hEq
      exact h1 (by exact_mod_cast hEq.symm))]
    rfl

/-- Claim C4 (witness): with chunk 1 of 3 stored, a chunk announcing total
2 discards the old data; the buffer then holds only the new chunk and
expects 2. -/
theorem chunk_total_mismatch_resets_witness :
    handleInboundChunk (⟨[((1 : Int), ['a'])], 3, 10⟩ : ChunkState)
        ("CHUNK:1/2:b".toList) 10 =
      handleInboundChunk initState ("CHUNK:1/2:b".toList) 10 ∧
    (handleInboundChunk (⟨[((1 : Int), ['a'])], 3, 10⟩ : ChunkState)
        ("CHUNK:1/2:b".toList) 10).1 =
      (⟨[((1 : Int), ['b'])], 2, 10⟩ : ChunkState) := by
  have h := chunk_total_mismatch_resets (⟨[((1 : Int), ['a'])], 3, 10⟩ : ChunkState)
    ("CHUNK:1/2:b".toList) 10 1 2 ['b'] (by decide) (by decide) (by decide)
  exact ⟨h.1, h.2 (by decide)⟩

/-- Claim C5: every inbound wireless message prefixed `CHUNK:` whose header
is malformed is forwarded to the host link as `RAW:<original>` plus a
terminator, with the reassembly state (chunk dict, total, timestamp) left
unchanged and no exception escaping (the handler is total); and the
malformed cases named by the claim — a missing colon after the tag, or a
non-numeric `n` or `N` — are exactly parse failures. -/
theorem malformed_chunk_raw (s : ChunkState) (now : Nat) :
    (∀ msg : List Char, chunkTag.isPrefixOf msg = true → parseChunk? msg = none →
      onBleReceive s msg now = (s, [rawLine msg])) ∧
    (∀ msg : List Char, splitFirst? ':' (msg.drop 6) = none → parseChunk? msg = none) ∧
    (∀ (msg header data nStr tStr : List Char),
      splitFirst? ':' (msg.drop 6) = some (header, data) →
      splitAll '/' header = [nStr, tStr] →
      pyInt? nStr = none ∨ pyInt? tStr = none →
      parseChunk? msg = none) := by
  refine ⟨?_, ?_, ?_⟩
  · intro msg hpre hp
    unfold onBleReceive
    rw [if_pos hpre]
    exact handleInboundChunk_raw s msg now hp
  · intro msg h
    unfold parseChunk?
    rw [h]
    rfl
  · intro msg header data nStr tStr hsf hsa hnum
    unfold parseChunk?
    rw [hsf, Option.some_bind]
    show Option.map (fun p => (p.1, p.2, data)) (parseHeader? header) = none
    unfold parseHeader?
    rw [hsa]
    show Option.map (fun p => (p.1, p.2, data)) (parseNums? nStr tStr) = none
    unfold parseNums?
    rcases hnum with h | h
    · rw [h]
      cases pyInt? tStr <;> rfl
    · rw [h]
      cases pyInt? nStr <;> rfl

/-- Claim C5 (witness): `CHUNK:x/2:q` (non-numeric `n`) arriving while a
reassembly is in progress is forwarded as `RAW:CHUNK:x/2:q` and the stored
state survives untouched. -/
theorem malformed_chunk_raw_witness :
    onBleReceive (⟨[((1 : Int), ['a'])], 3, 7⟩ : ChunkState) ("CHUNK:x/2:q".toList) 9 =
      ((⟨[((1 : Int), ['a'])], 3, 7⟩ : ChunkState), [rawLine ("CHUNK:x/2:q".toList)]) :=
  (malformed_chunk_raw _ 9).1 _ (by decide) (by decide)

/-- Lookup is unchanged by filtering out keys outside `1..total` when the
key looked up is itself in range. -/
theorem mapFind?_filter_range (total k : Int) (hk : 1 ≤ k ∧ k ≤ total) :
    ∀ l : List (Int × List Char),
      mapFind? (l.filter (fun e => decide (1 ≤ e.1 ∧ e.1 ≤ total))) k = mapFind? l k := by
  intro l
  induction l with
  | nil => rfl
  | cons e l ih =>
    rw [List.filter_cons]
    by_cases hpe : (1 ≤ e.1 ∧ e.1 ≤ total)
    · rw [if_pos (by simpa using hpe)]
      rw [mapFind?, mapFind?]
      by_cases hke : k = e.1
      · rw [if_pos hke, if_pos hke]
      · rw [if_neg hke, if_neg hke, ih]
    · rw [if_neg (by simpa using hpe)]
      conv_rhs => rw [mapFind?]
      have hke : k ≠ e.1 := fun h => hpe (h ▸ hk)
      rw [if_neg hke]
      exact ih

/-- Reassembly reads only the keys `1..total`: entries with out-of-range
keys are silently discarded. -/
theorem assembleFrom_filter (buf : List (Int × List Char)) (total : Int) :
    assembleFrom buf total =
      assembleFrom (buf.filter (fun e => decide (1 ≤ e.1 ∧ e.1 ≤ total))) total := by
  unfold assembleFrom
  rw [foldl_append_eq, foldl_append_eq]
  congr 1
  congr 1
  apply List.map_congr_left
  intro i hi
  rw [List.mem_range] at hi
  unfold mapGet
  rw [mapFind?_filter_range total ((i : Int) + 1) (by constructor <;> omega)]

/-- Claim C10: reassembly completion is decided purely by the number of
distinct stored chunk indices.  For a valid chunk continuing the current
sequence (same total, not expired): if storing it makes the dict size equal
`total`, the handler completes — writing the concatenation over indices
`1..total`, where missing indices contribute the empty string and
out-of-range entries are ignored (filtering them away changes nothing) —
and resets; otherwise it just stores the chunk.  Nothing requires the
stored indices to cover `1..total`. -/
theorem completion_by_count (s : ChunkState) (msg : List Char) (now : Nat)
    (n total : Int) (data : List Char)
    (hp : parseChunk? msg = some (n, total, data))
    (hsame : total = s.chunk_total)
    (hfresh : s.chunk_ts = 0 ∨ now - s.chunk_ts ≤ CHUNK_TIMEOUT_MS) :
    (((mapInsert s.chunk_buf n data).length : Int) = total →
      handleInboundChunk s msg now =
        (initState, [nlTerminate (assembleFrom (mapInsert s.chunk_buf n data) total)])) ∧
    (((mapInsert s.chunk_buf n data).length : Int) ≠ total →
      handleInboundChunk s msg now =
        (⟨mapInsert s.chunk_buf n data, s.chunk_total,
          if s.chunk_ts = 0 then now else s.chunk_ts⟩, [])) ∧
    assembleFrom (mapInsert s.chunk_buf n data) total =
      assembleFrom ((mapInsert s.chunk_buf n data).filter
        (fun e => decide (1 ≤ e.1 ∧ e.1 ≤ total))) total := by
  refine ⟨?_, ?_, assembleFrom_filter _ _⟩
  · intro hlen
    rw [handleInboundChunk_parsed s msg now n total data hp]
    rw [chunkStep_keep s n total data now hsame hfresh]
    rw [chunkFinish_complete _ _ _ hlen]
  · intro hlen
    rw [handleInboundChunk_parsed s msg now n total data hp]
    rw [chunkStep_keep s n total data now hsame hfresh]
    rw [chunkFinish_incomplete _ _ _ hlen]

/-- Claim C10 (witness): with chunk 2/2 stored, the out-of-range chunk 3/2
completes the sequence by count alone — the output is the payload of index
2 with index 1 contributing the empty string and index 3 discarded. -/
theorem completion_by_count_witness :
    handleInboundChunk (⟨[((2 : Int), ['b'])], 2, 10⟩ : ChunkState)
        ("CHUNK:3/2:c".toList) 10 =
      (initState, [['b', '\n']]) := by
  rw [(completion_by_count (⟨[((2 : Int), ['b'])], 2, 10⟩ : ChunkState)
    ("CHUNK:3/2:c".toList) 10 3 2 ['c'] (by decide) (by decide)
    (Or.inr (by decide))).1 (by decide)]
  decide

/-- Claim C6: the connection-supervisor loop of `_advertise_task` runs
forever, terminating only on explicit cancellation: over any finite run of
transport outcomes containing no `CancelledError`, the loop never signals
termination; every iteration emits the `advertising` status event first;
and every transport error (OS error or other radio exception) emits an
`error` status event with its detail and backs off 1000 ms before the loop
re-advertises — no error path terminates the loop. -/
theorem advertise_loop_resilient (os : List AdvOutcome)
    (hnc : AdvOutcome.cancelled ∉ os) :
    (advertiseTask os).2 = false ∧
    (∀ o ∈ os, (advertiseIter o).events.head? = some ("advertising", "")) ∧
    (∀ (d : String), ∀ o ∈ os, (o = AdvOutcome.osError d ∨ o = AdvOutcome.advError d) →
      ("error", d) ∈ (advertiseIter o).events ∧ (advertiseIter o).sleepMs = 1000) := by
  refine ⟨?_, ?_, ?_⟩
  · revert hnc
    induction os with
    | nil => intro hnc; rfl
    | cons o rest ih =>
      intro hnc
      rcases o with peer | _ | _ | d | d
      · exact ih (fun hm => hnc (List.mem_cons_of_mem _ hm))
      · exact ih (fun hm => hnc (List.mem_cons_of_mem _ hm))
      · exact absurd (List.mem_cons_self _ _) hnc
      · exact ih (fun hm => hnc (List.mem_cons_of_mem _ hm))
      · exact ih (fun hm => hnc (List.mem_cons_of_mem _ hm))
  · intro o _
    rcases o with peer | _ | _ | d | d <;> rfl
  · intro d o _ hcase
    rcases hcase with rfl | rfl
    · exact ⟨List.mem_cons_of_mem _ (List.mem_cons_self _ _), rfl⟩
    · exact ⟨List.mem_cons_of_mem _ (List.mem_cons_self _ _), rfl⟩

/-- Claim C6 (witness): an OS error followed by a clean disconnect does not
terminate the loop. -/
theorem advertise_loop_resilient_witness :
    (advertiseTask [AdvOutcome.osError "radio", AdvOutcome.devDisconnected]).2 = false :=
  (advertise_loop_resilient _ (by decide)).1

/-- Claim C8: while the Connection Supervisor does not report `Connected`,
every outbound wireless send is dropped without queueing — `_send_ble`
(the single-payload path), `_send_chunked` and the per-line dispatch write
nothing to the transport, and `BLEServer.send` returns without notifying.
The send functions are pure: no message is stored anywhere for later
delivery (the empty write lists are their entire effect). -/
theorem sends_dropped_when_disconnected (data line : List Char) (s : String) :
    sendBLE false data = [] ∧
    sendChunked false line = [] ∧
    processLine false line = [] ∧
    bleServerSend false s = none := by
  refine ⟨rfl, rfl, ?_, rfl⟩
  unfold processLine
  split <;> rfl

/-- Claim C9: on a host-side write failure against a stale handle, `send`
reconnects — closing the old handle, waiting the 1 s cooldown, reopening
the same port — and retries the same encoded payload exactly once: every
physical attempt carries the same payload, there are at most two attempts,
a successful call delivers the payload exactly once, a reconnect happens
exactly when the first write fails, and the call propagates a failure to
the caller exactly when both writes fail. -/
theorem send_retry_once (port : Option String) (message : String) (f1 f2 : Bool) :
    (∀ a ∈ (sendRetry port message f1 f2).attempts, a = encodeMsg message) ∧
    (sendRetry port message f1 f2).attempts.length = (if f1 then 2 else 1) ∧
    ((sendRetry port message f1 f2).ok = true →
      (sendRetry port message f1 f2).delivered = [encodeMsg message]) ∧
    (f1 = true → (sendRetry port message f1 f2).reconnects = [⟨true, 1000, port⟩]) ∧
    (f1 = false → (sendRetry port message f1 f2).reconnects = []) ∧
    ((sendRetry port message f1 f2).ok = false ↔ f1 = true ∧ f2 = true) := by
  cases f1 <;> cases f2 <;> simp [sendRetry]

/-- Claim C9 (witness): first write fails, reconnect to the same port with
the 1 s cooldown, and the retried payload is delivered exactly once. -/
theorem send_retry_once_witness :
    (sendRetry (some "COM5") "CMD:ping" true false).delivered = [encodeMsg "CMD:ping"] ∧
    (sendRetry (some "COM5") "CMD:ping" true false).reconnects
      = [⟨true, 1000, some "COM5"⟩] :=
  ⟨(send_retry_once (some "COM5") "CMD:ping" true false).2.2.1 rfl,
   (send_retry_once (some "COM5") "CMD:ping" true false).2.2.2.1 rfl⟩

/-! # Helper lemmas: the correlator polling loop -/

/-- Entries delivered by the first step plus those of later steps. -/
theorem stepEntries_cons (st : Nat × List (Nat × String))
    (steps : List (Nat × List (Nat × String))) :
    stepEntries (st :: steps) = st.2 ++ stepEntries steps := by
  unfold stepEntries
  rw [List.map_cons, List.flatten_cons]

/-- Everything the polling loop returns either was already collected or
comes from a delivered queue entry stamped at or after `t0`. -/
theorem sendAndWaitLoop_sound (t0 deadline settle : Nat) :
    ∀ (steps : List (Nat × List (Nat × String))) (lines : List String) (firstAt : Option Nat),
      ∀ l ∈ sendAndWaitLoop t0 deadline settle steps lines firstAt,
        l ∈ lines ∨ ∃ ts, t0 ≤ ts ∧ (ts, l) ∈ stepEntries steps := by
  intro steps
  induction steps with
  | nil =>
    intro lines fa l hl
    left
    simpa [sendAndWaitLoop] using hl
  | cons st rest ih =>
    obtain ⟨t, arrived⟩ := st
    intro lines fa l hl
    have hcollect : ∀ l : String,
        l ∈ lines ++ (arrived.filter (fun e => t0 ≤ e.1)).map Prod.snd →
        l ∈ lines ∨ ∃ ts, t0 ≤ ts ∧ (ts, l) ∈ stepEntries ((t, arrived) :: rest) := by
      intro l hl
      rcases List.mem_append.mp hl with h | h
      · exact Or.inl h
      · obtain ⟨e, he, rfl⟩ := List.mem_map.mp h
        have hef := List.of_mem_filter he
        have hea := List.mem_of_mem_filter he
        refine Or.inr ⟨e.1, by simpa using hef, ?_⟩
        rw [stepEntries_cons]
        exact List.mem_append_left _ hea
    have hrest : ∀ (lines2 : List String) (fa2 : Option Nat),
        l ∈ sendAndWaitLoop t0 deadline settle rest lines2 fa2 →
        (l ∈ lines2 ∨ ∃ ts, t0 ≤ ts ∧ (ts, l) ∈ stepEntries ((t, arrived) :: rest)) := by
      intro lines2 fa2 hmem
      rcases ih lines2 fa2 l hmem with h | ⟨ts, hts, hmem2⟩
      · exact Or.inl h
      · refine Or.inr ⟨ts, hts, ?_⟩
        rw [stepEntries_cons]
        exact List.mem_append_right _ hmem2
    simp only [sendAndWaitLoop] at hl
    split at hl
    · split at hl
      · split at hl
        · exact hcollect l hl
        · rcases hrest _ _ hl with h | h
          · exact hcollect l h
          · exact Or.inr h
      · rcases hrest _ _ hl with h | h
        · exact hcollect l h
        · exact Or.inr h
    · exact Or.inl hl

/-- If every delivered entry is stamped before `t0`, the loop collects
nothing beyond what it started with. -/
theorem sendAndWaitLoop_stale (t0 deadline settle : Nat) :
    ∀ (steps : List (Nat × List (Nat × String))),
      (∀ e ∈ stepEntries steps, e.1 < t0) →
      ∀ (lines : List String) (firstAt : Option Nat),
        sendAndWaitLoop t0 deadline settle steps lines firstAt = lines := by
  intro steps
  induction steps with
  | nil => intro _ lines fa; rfl
  | cons st rest ih =>
    obtain ⟨t, arrived⟩ := st
    intro h lines fa
    have hfresh : arrived.filter (fun e => decide (t0 ≤ e.1)) = [] := by
      rw [List.filter_eq_nil_iff]
      intro e he
      have := h e (by rw [stepEntries_cons]; exact List.mem_append_left _ he)
      simpa using (by omega : ¬ t0 ≤ e.1)
    have hrest : ∀ e ∈ stepEntries rest, e.1 < t0 := by
      intro e he
      exact h e (by rw [stepEntries_cons]; exact List.mem_append_right _ he)
    simp only [sendAndWaitLoop, hfresh, List.map_nil, List.append_nil, ne_eq,
      not_true_eq_false, and_false, if_false]
    split
    · split
      · split
        · rfl
        · exact ih hrest lines _
      · exact ih hrest lines _
    · rfl

/-- Claim C7: `send_and_wait` clears the RX queue before sending, so its
result never depends on pre-send queue contents; every returned line comes
from a queue entry timestamped at or after the send time `t0` — no line of
a previous request is attributed to the current one; and if no qualifying
line is delivered before the deadline, it returns the empty result. -/
theorem send_and_wait_spec (q0 q1 : List (Nat × String)) (t0 timeout settle : Nat)
    (steps : List (Nat × List (Nat × String))) :
    send_and_wait q0 t0 timeout settle steps = send_and_wait q1 t0 timeout settle steps ∧
    (∀ l ∈ send_and_wait q0 t0 timeout settle steps,
      ∃ ts, t0 ≤ ts ∧ (ts, l) ∈ stepEntries steps) ∧
    ((∀ e ∈ stepEntries steps, e.1 < t0) →
      send_and_wait q0 t0 timeout settle steps = []) := by
  refine ⟨rfl, ?_, ?_⟩
  · intro l hl
    rcases sendAndWaitLoop_sound t0 (t0 + timeout) settle steps [] none l hl with h | h
    · exact absurd h (List.not_mem_nil l)
    · exact h
  · intro h
    exact sendAndWaitLoop_stale t0 (t0 + timeout) settle steps h [] none

/-- Claim C7 (witness): a stale pre-send queue entry and a stale delivery
(timestamp 90, before the send at 100) produce the empty result. -/
theorem send_and_wait_spec_witness :
    send_and_wait [(0, "stale")] 100 5000 400 [(150, [(90, "old")])] = [] :=
  (send_and_wait_spec [(0, "stale")] [] 100 5000 400 [(150, [(90, "old")])]).2.2
    (by decide)
